import Mathlib

/-!
Verification of the transcript parser (`convert_trasncript.py`).

The parser is embedded shallowly: Python strings become `List Char`, each
regular expression of the source is implemented as a hand-written matcher
that follows the regex's backtracking semantics (for every pattern used in
the source, greedy runs followed by a mandatory literal or character class
are deterministic, because shrinking a maximal run always places a
character of the run's class where the follow-up constraint requires a
different class), and `re.finditer` becomes a left-to-right non-overlapping
scan.  Machine-level concerns do not arise: the program manipulates text
only.
-/

namespace TS

/-- Python strings are modelled as lists of characters. -/
abbrev Str := List Char

/-- Python `\s` / `str.strip()` whitespace (ASCII part, which is what the
transcript text contains). -/
def isSpace (c : Char) : Bool :=
  c = ' ' || c = '\t' || c = '\n' || c = '\r' || c = '\x0b' || c = '\x0c'

/-- Python `\d` on the ASCII digits the transcript contains. -/
def isDigit (c : Char) : Bool := '0' ≤ c && c ≤ '9'

/-- The regex class `[A-Z]`. -/
def isUpper (c : Char) : Bool := 'A' ≤ c && c ≤ 'Z'

/-- `text[a:b]` for `0 ≤ a ≤ b` (Python slicing clamps, as `take`/`drop` do). -/
def slice (l : Str) (a b : Nat) : Str := (l.drop a).take (b - a)

/-- `str.strip()`: drop whitespace from both ends. -/
def stripList (l : Str) : Str :=
  ((l.dropWhile isSpace).reverse.dropWhile isSpace).reverse

/-- `str.replace("*", "")`. -/
def removeStar (l : Str) : Str := l.filter (fun c => c ≠ '*')

/-- Index of the first occurrence of `pat` in `l` (Python `str.find`,
restricted to the case where the pattern occurs). -/
def firstOcc (pat : Str) : Str → Option Nat
  | [] => if pat.isPrefixOf [] then some 0 else none
  | c :: r =>
    if pat.isPrefixOf (c :: r) then some 0
    else (firstOcc pat r).map (· + 1)

/-- Python `pat in l` (substring containment). -/
def containsSub (pat l : Str) : Bool := (firstOcc pat l).isSome

/-- Python `str.split()` (split on whitespace runs, discarding empties);
`acc` holds the current token reversed. -/
def splitWsAux : Str → Str → List Str
  | [], acc => if acc.isEmpty then [] else [acc.reverse]
  | c :: r, acc =>
    if isSpace c then
      if acc.isEmpty then splitWsAux r [] else acc.reverse :: splitWsAux r []
    else splitWsAux r (c :: acc)

def splitWs (l : Str) : List Str := splitWsAux l []

/-- One mandatory whitespace char followed by greedily all further
whitespace: the deterministic reading of `\s+` when the following pattern
element cannot match whitespace.  Returns the remainder. -/
def ws1 : Str → Option Str
  | [] => none
  | c :: r => if isSpace c then some (r.dropWhile isSpace) else none

/-- Match a literal, returning the remainder. -/
def stripLit (pat l : Str) : Option Str :=
  if pat.isPrefixOf l then some (l.drop pat.length) else none

/-- `\d+` (greedy), returning the digits and the remainder. -/
def digits1 (s : Str) : Option (Str × Str) :=
  match s.takeWhile isDigit with
  | [] => none
  | d => some (d, s.dropWhile isDigit)

/-- `\d+\.?\d*` (greedy), returning the matched token and the remainder. -/
def numTok (s : Str) : Option (Str × Str) :=
  match s.takeWhile isDigit with
  | [] => none
  | d1 =>
    match s.dropWhile isDigit with
    | '.' :: r2 => some (d1 ++ '.' :: r2.takeWhile isDigit, r2.dropWhile isDigit)
    | r1 => some (d1, r1)

/-- A numeric string in the sense of the spec: digits, optionally with a
decimal point (the shape `\d+\.?\d*`). -/
def isNumericStr : Str → Bool
  | [] => false
  | c :: r =>
    isDigit c &&
      (match (c :: r).dropWhile isDigit with
       | [] => true
       | '.' :: t => t.all isDigit
       | _ => false)

/-! ### The semester-header pattern

`r"(20\d{2}-20\d{2}\s+(Güz|Bahar|Yaz)\s+Dönemi|20\d{2}-20\d{2}\s+Yaz Okulu)"`
(line 15 of the source).  The two top-level alternatives are tried in
order; the inner alternatives have pairwise distinct first letters, so the
regex is deterministic. -/

/-- `20\d{2}-20\d{2}`, returning the remainder. -/
def yearRange : Str → Option Str
  | '2' :: '0' :: a :: b :: '-' :: '2' :: '0' :: c :: d :: r =>
    if isDigit a && isDigit b && isDigit c && isDigit d then some r else none
  | _ => none

def semAlt1 (s : Str) : Option Str := do
  let r1 ← yearRange s
  let r2 ← ws1 r1
  let r3 ← (stripLit "Güz".toList r2).orElse fun _ =>
    (stripLit "Bahar".toList r2).orElse fun _ => stripLit "Yaz".toList r2
  let r4 ← ws1 r3
  stripLit "Dönemi".toList r4

def semAlt2 (s : Str) : Option Str := do
  let r1 ← yearRange s
  let r2 ← ws1 r1
  stripLit "Yaz Okulu".toList r2

/-- Matcher for the semester pattern anchored at the start of `s`,
returning the remainder after the match. -/
def semMatch (s : Str) : Option Str := (semAlt1 s).orElse fun _ => semAlt2 s

/-! ### `re.finditer`

Left-to-right scan producing non-overlapping `(start, end)` spans; after a
match the scan resumes at its end (after an empty match, one char later,
as in Python).  The fuel is one more than the text length, which the scan,
advancing by at least one position per step, never exhausts. -/

def finditerAux (m : Str → Option Str) : Nat → Str → Nat → List (Nat × Nat)
  | 0, _, _ => []
  | _ + 1, [], _ => []
  | fuel + 1, c :: rest, i =>
    match m (c :: rest) with
    | some r =>
      let L := (c :: rest).length - r.length
      if L = 0 then (i, i) :: finditerAux m fuel rest (i + 1)
      else (i, i + L) :: finditerAux m fuel r (i + L)
    | none => finditerAux m fuel rest (i + 1)

def finditer (m : Str → Option Str) (l : Str) : List (Nat × Nat) :=
  finditerAux m (l.length + 1) l 0

/-! ### The course-code pattern

`r"(\*?\s*[A-Z]{3}\s+\d{3}[A-Z]*)\s"` (line 48). -/

/-- The optional leading `\*?`. -/
def dropStar : Str → Str
  | '*' :: r => r
  | s => s

/-- Matcher for the course-code pattern anchored at the start of `s`,
returning the remainder after the whole match (which ends with the single
whitespace character required after the code). -/
def courseMatch (s : Str) : Option Str :=
  match (dropStar s).dropWhile isSpace with
  | a :: b :: c :: r2 =>
    if isUpper a && isUpper b && isUpper c then
      if (r2.takeWhile isSpace).isEmpty then none
      else
        match r2.dropWhile isSpace with
        | d1 :: d2 :: d3 :: r3 =>
          if isDigit d1 && isDigit d2 && isDigit d3 then
            match r3.dropWhile isUpper with
            | w :: r4 => if isSpace w then some r4 else none
            | [] => none
          else none
        | _ => none
    else none
  | _ => none

/-! ### Language tokens and the guard pattern -/

/-- `(Tr|İng\.)`, returning the remainder. -/
def langLit (s : Str) : Option Str :=
  (stripLit "Tr".toList s).orElse fun _ => stripLit "İng.".toList s

/-- The guard `r"(Tr|İng\.)\s+\d+\s+\d+\s+\d+"` anchored at the start. -/
def guardAt (s : Str) : Bool :=
  (do
    let r1 ← langLit s
    let r2 ← ws1 r1
    let (_, r3) ← digits1 r2
    let r4 ← ws1 r3
    let (_, r5) ← digits1 r4
    let r6 ← ws1 r5
    let (_, _) ← digits1 r6
    some ()).isSome

/-- `re.search` of the guard pattern (line 73). -/
def guardSearch : Str → Bool
  | [] => false
  | c :: rest => guardAt (c :: rest) || guardSearch rest

/-! ### The grade alternation

`(AA|BA\+?|BB\+?|CB\+?|CC\+?|DC\+?|DD\+?|BA|BB|CB|CC|DC|DD|FF|VF|BL|SG|DK|KL|--)`
(line 81), in source order.  The `Bool` flags the `\+?` variants. -/

def gradeAlts : List (Str × Bool) :=
  [("AA".toList, false), ("BA".toList, true), ("BB".toList, true),
   ("CB".toList, true), ("CC".toList, true), ("DC".toList, true),
   ("DD".toList, true), ("BA".toList, false), ("BB".toList, false),
   ("CB".toList, false), ("CC".toList, false), ("DC".toList, false),
   ("DD".toList, false), ("FF".toList, false), ("VF".toList, false),
   ("BL".toList, false), ("SG".toList, false), ("DK".toList, false),
   ("KL".toList, false), ("--".toList, false)]

def tryAlts : List (Str × Bool) → Str → Option (Str × Str)
  | [], _ => none
  | (t, pl) :: rest, s =>
    match stripLit t s with
    | some r =>
      if pl then
        match r with
        | '+' :: r2 => some (t ++ ['+'], r2)
        | _ => some (t, r)
      else some (t, r)
    | none => tryAlts rest s

def gradeTok (s : Str) : Option (Str × Str) := tryAlts gradeAlts s

/-- The closed grade-symbol list of line 136 (also the value set of the
grade alternation above). -/
def gradeStrs : List Str :=
  ["AA".toList, "BA+".toList, "BA".toList, "BB+".toList, "BB".toList,
   "CB+".toList, "CB".toList, "CC+".toList, "CC".toList, "DC+".toList,
   "DC".toList, "DD+".toList, "DD".toList, "FF".toList, "VF".toList,
   "BL".toList, "SG".toList, "DK".toList, "KL".toList, "--".toList]

/-- Python `parts[4] in [...]` (line 136). -/
def gradeMem (p : Str) : Bool := gradeStrs.contains p

/-! ### The combined primary pattern

`r"(Tr|İng\.)\s+(\d+)\s+(\d+)\s+(\d+\.?\d*)\s+(\d+\.?\d*)\s+(GRADE)\s+(\d+\.?\d*)(?:\s+([A-Z]{2}))?"`
(line 81; `re.DOTALL` is a no-op as the pattern contains no `.`
wildcard). -/

structure PG where
  lang : Str
  g2 : Str
  g3 : Str
  g4 : Str
  g5 : Str
  grade : Str
  pts : Str
  cmt : Option Str
deriving DecidableEq, Repr

/-- `(?:\s+([A-Z]{2}))?` at the end of the primary pattern. -/
def commentOpt (s : Str) : Option Str :=
  match ws1 s with
  | some r =>
    match r with
    | a :: b :: _ => if isUpper a && isUpper b then some [a, b] else none
    | _ => none
  | none => none

/-- The primary pattern anchored at the start of `s`. -/
def primAt (s : Str) : Option PG := do
  let r1 ← langLit s
  let lg := (s.take (s.length - r1.length))
  let r2 ← ws1 r1
  let (g2, r3) ← digits1 r2
  let r4 ← ws1 r3
  let (g3, r5) ← digits1 r4
  let r6 ← ws1 r5
  let (g4, r7) ← numTok r6
  let r8 ← ws1 r7
  let (g5, r9) ← numTok r8
  let r10 ← ws1 r9
  let (gr, r11) ← gradeTok r10
  let r12 ← ws1 r11
  let (pt, r13) ← numTok r12
  some ⟨lg, g2, g3, g4, g5, gr, pt, commentOpt r13⟩

/-- `re.search` of the primary pattern: leftmost match, returning the
match's start position and its groups. -/
def searchPrimary : Str → Nat → Option (Nat × PG)
  | [], _ => none
  | c :: rest, i =>
    match primAt (c :: rest) with
    | some pg => some (i, pg)
    | none => searchPrimary rest (i + 1)

/-! ### Name cleaning

`re.sub(r'\s*\([^)]*\)\s*', '', name_part).strip()` followed by
`re.sub(r'\s+', ' ', name)` (lines 98-99 and 148-149). -/

/-- One match of `\s*\([^)]*\)\s*` anchored at the start of `l`, returning
the remainder after the match. -/
def parenMatchAt (l : Str) : Option Str :=
  match l.dropWhile isSpace with
  | '(' :: r1 =>
    match r1.dropWhile (fun c => c ≠ ')') with
    | ')' :: r2 => some (r2.dropWhile isSpace)
    | _ => none
  | _ => none

/-- `re.sub(r'\s*\([^)]*\)\s*', '', l)`: scan left to right, delete each
leftmost match, resume after it.  Each step consumes at least one
character, so `l.length` fuel suffices. -/
def subParenAux : Nat → Str → Str
  | 0, l => l
  | _ + 1, [] => []
  | fuel + 1, c :: rest =>
    match parenMatchAt (c :: rest) with
    | some r => subParenAux fuel r
    | none => c :: subParenAux fuel rest

def subParen (l : Str) : Str := subParenAux l.length l

/-- `re.sub(r'\s+', ' ', l)`: replace each maximal whitespace run by a
single space. -/
def collapseWsAux : Nat → Str → Str
  | 0, l => l
  | _ + 1, [] => []
  | fuel + 1, c :: rest =>
    if isSpace c then ' ' :: collapseWsAux fuel (rest.dropWhile isSpace)
    else c :: collapseWsAux fuel rest

def collapseWs (l : Str) : Str := collapseWsAux l.length l

/-- The full name cleaning applied to the (already stripped) text before
the language match. -/
def cleanName (np : Str) : Str := collapseWs (stripList (subParen np))

/-! ### Footer truncation and block cleaning -/

/-- The footer-indicator list of line 65, in source order. -/
def footerMarkers : List Str :=
  ["www.turkiye.gov.tr".toList, "Öğrenci No".toList, "T.C. Kimlik No".toList,
   "SELİM DİLŞAD".toList, "ERCAN".toList, "İSTANBUL TEKNİK ÜNİVERSİTESİ".toList,
   "NOT DÖKÜM BELGESİ".toList, "YOKTR4QWO3AEMVO0BT".toList,
   "Ders kodunun başında * olan dersler".toList]

/-- Lines 67-70: truncate at the first occurrence of the first indicator
(in list order) contained in the row text, then `strip`; `break` after the
first hit. -/
def truncFooter (ct : Str) : Str :=
  match footerMarkers.find? (fun ind => containsSub ind ct) with
  | some ind =>
    match firstOcc ind ct with
    | some k => stripList (ct.take k)
    | none => ct
  | none => ct

/-- The noise-substring list of line 38, in source order. -/
def skipMarkers : List Str :=
  ["Dersin Statüsü".toList, "Öğretim Dili".toList, "T U UK".toList,
   "AKTS".toList, "Not".toList, "Puan".toList, "Açıklama".toList,
   "DNO:".toList, "GNO:".toList, "TUK:".toList, "TAKTS:".toList,
   "DSD:".toList, "Başarılı".toList, "Pass".toList]

/-- Lines 36-42: a line is kept unless it contains a noise substring or is
blank after stripping. -/
def keepLine (line : Str) : Bool :=
  !(skipMarkers.any fun m => containsSub m line) && !(stripList line).isEmpty

/-- Lines 34-44: split the block on newlines, drop noise lines, rejoin. -/
def cleanBlock (bt : Str) : Str :=
  List.intercalate ['\n'] ((List.splitOn '\n' bt).filter keepLine)

/-! ### Course records and the two extraction paths -/

structure Course where
  semester : Str
  code : Str
  name : Str
  language : Str
  theory_hours : Str
  lab_hours : Str
  local_credits : Str
  ects_credits : Str
  grade : Str
  points : Str
  comment : Str
deriving DecidableEq, Repr

/-- Lines 84-113: the primary combined-pattern path over the truncated row
text `ct`. -/
def primaryRow (sem code ct : Str) : Option Course :=
  match searchPrimary ct 0 with
  | none => none
  | some (st, pg) =>
    some { semester := sem, code := code,
           name := cleanName (stripList (ct.take st)),
           language := stripList pg.lang,
           theory_hours := pg.g2, lab_hours := pg.g3,
           local_credits := pg.g4, ects_credits := pg.g5,
           grade := stripList pg.grade, points := pg.pts,
           comment := pg.cmt.getD [] }

/-- Lines 129-163: the body of the fallback path's `try` block.  The only
operations of the Python body that can raise are the positional accesses
`parts[0]` … `parts[5]`; they are modelled by `parts[i]?`, and a `none`
result is the `except` path (the row then yields no record). -/
def fallbackBody (sem code ct : Str) (ls le : Nat) (parts : List Str) :
    Option Course :=
  match parts[0]?, parts[1]?, parts[2]?, parts[3]?, parts[4]?, parts[5]? with
  | some th, some lb, some lc, some ec, some p4, some p5 =>
    let gp := if gradeMem p4 then (p4, p5) else (p5, p4)
    some { semester := sem, code := code,
           name := cleanName (stripList (ct.take ls)),
           language := stripList (slice ct ls le),
           theory_hours := th, lab_hours := lb,
           local_credits := lc, ects_credits := ec,
           grade := gp.1, points := gp.2,
           comment := parts.getD 6 [] }
  | _, _, _, _, _, _ => none

/-- Lines 115-165: the fallback path.  The last occurrence of a language
token is located with `finditer`; the text after it is stripped and split
on whitespace; at least six tokens are required. -/
def fallbackRow (sem code ct : Str) : Option Course :=
  match (finditer langLit ct).getLast? with
  | none => none
  | some (ls, le) =>
    if 6 ≤ (splitWs (stripList (ct.drop le))).length
    then fallbackBody sem code ct ls le (splitWs (stripList (ct.drop le)))
    else none

/-- Lines 51-165: process one course row.  `m = ((i, e), nxt)` is the
course-code match span `(i, e)` (the span includes the trailing whitespace
char, so group 1 is `[i, e-1)`) together with the start of the next match
(or the cleaned text's length).  The row text is sliced, stripped and
footer-truncated, the guard pattern is searched, and the primary path is
tried before the fallback. -/
def processRow (sem ct : Str) (m : (Nat × Nat) × Nat) : Option Course :=
  if guardSearch (truncFooter (stripList (slice ct m.1.2 m.2))) then
    match primaryRow sem (stripList (removeStar (slice ct m.1.1 (m.1.2 - 1))))
        (truncFooter (stripList (slice ct m.1.2 m.2))) with
    | some rec => some rec
    | none =>
      fallbackRow sem (stripList (removeStar (slice ct m.1.1 (m.1.2 - 1))))
        (truncFooter (stripList (slice ct m.1.2 m.2)))
  else none

/-- Pair each course-code match with the start of the next one (or the end
of the cleaned text), mirroring lines 55-59. -/
def rowPairs : List (Nat × Nat) → Nat → List ((Nat × Nat) × Nat)
  | [], _ => []
  | [m], len => [(m, len)]
  | m :: m2 :: rest, len => (m, m2.1) :: rowPairs (m2 :: rest) len

/-- Pair each semester-header match with its block span (header end to
next header start, or end of text), mirroring lines 21-31. -/
def semPairs : List (Nat × Nat) → Nat → List ((Nat × Nat) × (Nat × Nat))
  | [], _ => []
  | [(s, e)], len => [((s, e), (e, len))]
  | (s, e) :: m2 :: rest, len => ((s, e), (e, m2.1)) :: semPairs (m2 :: rest) len

/-- Lines 21-165: process one semester block. -/
def processBlock (t : Str) (p : (Nat × Nat) × (Nat × Nat)) : List Course :=
  let sem := slice t p.1.1 p.1.2
  let ct := cleanBlock (slice t p.2.1 p.2.2)
  (rowPairs (finditer courseMatch ct) ct.length).filterMap (processRow sem ct)

/-- `parse_transcript` (lines 12-167): nested result accumulation becomes
`flatMap` over semester blocks of `filterMap` over course rows. -/
def parse_transcript (t : Str) : List Course :=
  (semPairs (finditer semMatch t) t.length).flatMap (processBlock t)

/-! ## Generic list lemmas -/

theorem length_dropWhile_le (p : Char → Bool) (l : Str) :
    (l.dropWhile p).length ≤ l.length := by
  induction l with
  | nil => simp
  | cons c r ih =>
    by_cases h : p c
    · simp [List.dropWhile_cons_of_pos h]; omega
    · simp [List.dropWhile_cons_of_neg h]

theorem mem_dropWhile_sub {p : Char → Bool} {l : Str} {x : Char}
    (h : x ∈ l.dropWhile p) : x ∈ l := by
  induction l with
  | nil => simp at h
  | cons c r ih =>
    by_cases hp : p c
    · rw [List.dropWhile_cons_of_pos hp] at h
      exact List.mem_cons_of_mem _ (ih h)
    · rwa [List.dropWhile_cons_of_neg hp] at h

theorem all_of_dropWhile_nil {p : Char → Bool} {l : Str}
    (h : l.dropWhile p = []) : ∀ x ∈ l, p x = true := by
  induction l with
  | nil => simp
  | cons c r ih =>
    by_cases hp : p c
    · rw [List.dropWhile_cons_of_pos hp] at h
      intro x hx
      rcases List.mem_cons.1 hx with rfl | hx
      · exact hp
      · exact ih h x hx
    · rw [List.dropWhile_cons_of_neg hp] at h
      exact absurd h (by simp)

theorem head_dropWhile_false {p : Char → Bool} {l : Str} {a : Char}
    (h : (l.dropWhile p).head? = some a) : p a = false := by
  induction l with
  | nil => simp at h
  | cons c r ih =>
    by_cases hp : p c
    · rw [List.dropWhile_cons_of_pos hp] at h
      exact ih h
    · rw [List.dropWhile_cons_of_neg hp] at h
      simp at h
      subst h
      simpa using hp

theorem mem_stripList {l : Str} {x : Char} (h : x ∈ stripList l) : x ∈ l := by
  unfold stripList at h
  rw [List.mem_reverse] at h
  exact mem_dropWhile_sub (List.mem_reverse.1 (mem_dropWhile_sub h))

/-- The stripped text, written as an infix of the original. -/
theorem dropWhile_rev_split (l : Str) :
    l.dropWhile isSpace
      = ((l.dropWhile isSpace).reverse.dropWhile isSpace).reverse
        ++ ((l.dropWhile isSpace).reverse.takeWhile isSpace).reverse := by
  conv_lhs => rw [← List.reverse_reverse (l.dropWhile isSpace),
    ← List.takeWhile_append_dropWhile isSpace (l.dropWhile isSpace).reverse,
    List.reverse_append]

/-- `stripList` decomposes its argument: the strip result is an infix. -/
theorem stripList_infix (l : Str) :
    ∃ u v, l = u ++ stripList l ++ v := by
  refine ⟨(l.takeWhile isSpace),
    (((l.dropWhile isSpace).reverse.takeWhile isSpace)).reverse, ?_⟩
  unfold stripList
  conv_lhs => rw [← List.takeWhile_append_dropWhile isSpace l,
    dropWhile_rev_split l]
  rw [List.append_assoc]

theorem stripList_head {l : Str} {c : Char}
    (h : (stripList l).head? = some c) : isSpace c = false := by
  unfold stripList at h
  cases hc : ((l.dropWhile isSpace).reverse.dropWhile isSpace).reverse with
  | nil => rw [hc] at h; simp at h
  | cons a w =>
    rw [hc] at h
    simp only [List.head?_cons, Option.some.injEq] at h
    subst h
    apply head_dropWhile_false (p := isSpace) (l := l)
    rw [dropWhile_rev_split l, hc]
    rfl

theorem stripList_last {l : Str} {c : Char}
    (h : (stripList l).getLast? = some c) : isSpace c = false := by
  unfold stripList at h
  rw [List.getLast?_reverse] at h
  exact head_dropWhile_false h

theorem star_not_mem_removeStar (l : Str) : '*' ∉ removeStar l := by
  intro h
  rcases List.mem_filter.1 h with ⟨-, h2⟩
  simp at h2

/-! ## `finditer` produces ordered, non-overlapping spans -/

/-- `spansOrdered i ms`: every span starts at or after `i`, is well formed,
and precedes the next span. -/
def spansOrdered : Nat → List (Nat × Nat) → Prop
  | _, [] => True
  | i, (a, b) :: rest => i ≤ a ∧ a ≤ b ∧ spansOrdered b rest

theorem spansOrdered_mono {i j : Nat} {ms : List (Nat × Nat)}
    (hij : i ≤ j) (h : spansOrdered j ms) : spansOrdered i ms := by
  cases ms with
  | nil => trivial
  | cons m rest =>
    obtain ⟨h1, h2, h3⟩ := h
    exact ⟨le_trans hij h1, h2, h3⟩

theorem finditerAux_ordered (m : Str → Option Str) :
    ∀ fuel l i, spansOrdered i (finditerAux m fuel l i) ∧
      ∀ ab ∈ finditerAux m fuel l i, ab.2 ≤ i + l.length := by
  intro fuel
  induction fuel with
  | zero => intro l i; exact ⟨trivial, by simp [finditerAux]⟩
  | succ fuel ih =>
    intro l i
    match l with
    | [] => exact ⟨trivial, by simp [finditerAux]⟩
    | c :: rest =>
      rw [finditerAux]
      cases hm : m (c :: rest) with
      | none =>
        refine ⟨spansOrdered_mono (Nat.le_succ i) (ih rest (i + 1)).1, ?_⟩
        intro ab hab
        have := (ih rest (i + 1)).2 ab hab
        simp only [List.length_cons]
        omega
      | some r =>
        simp only
        by_cases hL : (c :: rest).length - r.length = 0
        · simp only [hL, if_pos rfl]
          constructor
          · exact ⟨le_refl i, le_refl i,
              spansOrdered_mono (Nat.le_succ i) (ih rest (i + 1)).1⟩
          · intro ab hab
            rcases List.mem_cons.1 hab with rfl | hab
            · simp
            · have := (ih rest (i + 1)).2 ab hab
              simp only [List.length_cons]
              omega
        · simp only [if_neg hL]
          have hLle : (c :: rest).length - r.length ≤ (c :: rest).length :=
            Nat.sub_le _ _
          constructor
          · exact ⟨le_refl i, Nat.le_add_right _ _,
              (ih r (i + ((c :: rest).length - r.length))).1⟩
          · intro ab hab
            rcases List.mem_cons.1 hab with rfl | hab
            · simp
            · have hb := (ih r (i + ((c :: rest).length - r.length))).2 ab hab
              have : r.length ≤ (c :: rest).length := by omega
              omega

theorem finditer_ordered (m : Str → Option Str) (l : Str) :
    spansOrdered 0 (finditer m l) ∧ ∀ ab ∈ finditer m l, ab.2 ≤ l.length := by
  have h := finditerAux_ordered m (l.length + 1) l 0
  simpa using h

/-! ## C4: semester segmentation -/

/-- `chainCover i ps len`: the header/block pairs `ps` tile the text from
position `i` to `len` in document order: each block starts exactly at its
header's end, ends exactly at the next header's start (or at `len` for the
last block), and consecutive entries are adjacent. -/
def chainCover : Nat → List ((Nat × Nat) × (Nat × Nat)) → Nat → Prop
  | _, [], _ => True
  | i, ((hs, he), (bs, be)) :: rest, len =>
      i ≤ hs ∧ hs ≤ he ∧ bs = he ∧ he ≤ be ∧ be ≤ len ∧
      (rest = [] → be = len) ∧
      (∀ q r2, rest = q :: r2 → be = q.1.1) ∧
      chainCover be rest len

theorem semPairs_head (s e : Nat) (rest : List (Nat × Nat)) (len : Nat) :
    ∃ b tail, semPairs ((s, e) :: rest) len = ((s, e), b) :: tail := by
  cases rest with
  | nil => exact ⟨(e, len), [], rfl⟩
  | cons m2 r2 => exact ⟨(e, m2.1), semPairs (m2 :: r2) len, rfl⟩

theorem semPairs_chainCover :
    ∀ (ms : List (Nat × Nat)) (i len : Nat), spansOrdered i ms →
      (∀ ab ∈ ms, ab.2 ≤ len) → chainCover i (semPairs ms len) len := by
  intro ms
  induction ms with
  | nil => intro i len _ _; trivial
  | cons m rest ih =>
    intro i len hord hbnd
    obtain ⟨s, e⟩ := m
    obtain ⟨h1, h2, h3⟩ := hord
    cases rest with
    | nil =>
      have he : e ≤ len := hbnd (s, e) (by simp)
      exact ⟨h1, h2, rfl, he, le_refl len, fun _ => rfl,
        fun q r2 hq => by simp at hq, trivial⟩
    | cons m2 r2 =>
      obtain ⟨s2, e2⟩ := m2
      obtain ⟨h4, h5, h6⟩ := h3
      have he2 : e2 ≤ len := hbnd (s2, e2) (by simp)
      obtain ⟨b, tail, htl⟩ := semPairs_head s2 e2 r2 len
      refine ⟨h1, h2, rfl, h4, le_trans h5 he2, ?_, ?_, ?_⟩
      · intro hnil
        rw [htl] at hnil
        simp at hnil
      · intro q r3 hq
        rw [htl] at hq
        rw [List.cons.injEq] at hq
        rw [← hq.1]
      · show chainCover s2 (semPairs ((s2, e2) :: r2) len) len
        exact ih s2 len ⟨le_refl s2, h5, h6⟩
          (fun ab hab => hbnd ab (List.mem_cons_of_mem _ hab))

theorem semPairs_map_fst :
    ∀ (ms : List (Nat × Nat)) (len : Nat),
      (semPairs ms len).map Prod.fst = ms := by
  intro ms
  induction ms with
  | nil => intro len; rfl
  | cons m rest ih =>
    intro len
    obtain ⟨s, e⟩ := m
    cases rest with
    | nil => rfl
    | cons m2 r2 =>
      show ((((s, e), (e, m2.1)) :: semPairs (m2 :: r2) len).map Prod.fst)
        = (s, e) :: m2 :: r2
      rw [List.map_cons, ih len]

/-- C4 (amended): segmentation produces one block per header match, in
document order; each block spans from the end of its header to the start
of the next header (or to the end of the text for the last block);
consecutive blocks are separated exactly by the intervening header span,
so the blocks are ordered and pairwise disjoint and, together with the
header spans, tile the text from the first header's start to the end.
The text before the first header (and the header spans themselves) belong
to no block, so the blocks alone need not cover the entire input. -/
theorem c4_amended (t : Str) :
    chainCover 0 (semPairs (finditer semMatch t) t.length) t.length ∧
    (semPairs (finditer semMatch t) t.length).map Prod.fst =
      finditer semMatch t := by
  have h := finditer_ordered semMatch t
  exact ⟨semPairs_chainCover _ 0 t.length h.1 h.2, semPairs_map_fst _ _⟩

/-- Does the block list cover every position of a text of length `len`? -/
def coversAllB (bs : List ((Nat × Nat) × (Nat × Nat))) (len : Nat) : Bool :=
  (List.range len).all fun pos =>
    bs.any fun p => decide (p.2.1 ≤ pos) && decide (pos < p.2.2)

def exC4 : Str := "X 2023-2024 Güz Dönemi ABC".toList

/-- C4 counterexample: on a text with a character before the first
semester header, the produced blocks do not cover the entire input text
(position 0 lies in no block), refuting the claim's "cover the entire
input text with no gaps" part. -/
theorem c4_cex :
    coversAllB (semPairs (finditer semMatch exC4) exC4.length) exC4.length
      = false ∧
    semPairs (finditer semMatch exC4) exC4.length ≠ [] ∧ exC4 ≠ [] := by
  decide

/-! ## C9: zero semester headers -/

/-- C9: an input with zero semester-header matches parses to the empty
record list (and, the embedding being total, no error arises). -/
theorem c9_empty (t : Str) (h : finditer semMatch t = []) :
    parse_transcript t = [] := by
  unfold parse_transcript
  rw [h]
  rfl

theorem c9_empty_witness :
    finditer semMatch "hello world".toList = [] ∧
    parse_transcript "hello world".toList = [] :=
  ⟨by decide, c9_empty _ (by decide)⟩

/-! ## Counterexample inputs -/

def exC1 : Str := "2023-2024 Güz Dönemi\nABC 101 Name Tr 1 2 3.0 4.0 8 XX".toList

/-- C1 counterexample: on this input the fallback path emits a record
whose grade is `XX`, which is neither a grade symbol nor `--`. -/
theorem c1_cex :
    (parse_transcript exC1).map Course.grade = ["XX".toList] ∧
    gradeMem "XX".toList = false := by
  decide

def exC2 : Str :=
  "2023-2024 Güz Dönemi\nALG 101 Alpha Öğrenci No Beta Tr 3 0 3.0 5.0 AA 4.00 www.turkiye.gov.tr tail".toList

/-- C2 counterexample: the row contains the footer marker `Öğrenci No`
before the marker `www.turkiye.gov.tr`, yet truncation happens at the
latter (first in the marker list), so the earlier marker survives and
appears in the emitted record's name — refuting "truncated at the first
such marker occurring in the row" and "the marker … never appear[s] in
the extracted course name". -/
theorem c2_cex :
    (parse_transcript exC2).map Course.name = ["Alpha Öğrenci No Beta".toList] ∧
    containsSub "Öğrenci No".toList "Alpha Öğrenci No Beta".toList = true ∧
    "Öğrenci No".toList ∈ footerMarkers := by
  decide

def exC3 : Str := "2023-2024 Güz Dönemi\nMAT  101 Calculus Tr 3 0 3.0 5.0 AA 4.00".toList

/-- C3 counterexample: the course-code pattern's `\s+` matches the double
space of `MAT  101`, and the code normalization (`replace('*','')` then
`strip()`) does not collapse internal whitespace, so the emitted code
contains a two-space run. -/
theorem c3_cex :
    (parse_transcript exC3).map Course.code = ["MAT  101".toList] ∧
    containsSub "  ".toList "MAT  101".toList = true := by
  decide

def exC5 : Str := "2023-2024 Güz Dönemi\nABC 102 Tr 1 2 3 q Tr X Y Z W 8 9".toList

/-- C5 counterexample: the fallback path assigns arbitrary whitespace
tokens positionally, so this input yields a record whose theory_hours is
the non-numeric string `X`. -/
theorem c5_cex :
    (parse_transcript exC5).map Course.theory_hours = ["X".toList] ∧
    isNumericStr "X".toList = false := by
  decide

/-! ## Inversion of the primary pattern -/

/-- Every group of a successful primary match comes from its token
matcher. -/
theorem primAt_inv {s : Str} {pg : PG} (h : primAt s = some pg) :
    (∃ u d r, digits1 u = some (d, r) ∧ pg.g2 = d) ∧
    (∃ u d r, digits1 u = some (d, r) ∧ pg.g3 = d) ∧
    (∃ u d r, numTok u = some (d, r) ∧ pg.g4 = d) ∧
    (∃ u d r, numTok u = some (d, r) ∧ pg.g5 = d) ∧
    (∃ u d r, numTok u = some (d, r) ∧ pg.pts = d) ∧
    (∃ u g r, gradeTok u = some (g, r) ∧ pg.grade = g) := by
  unfold primAt at h
  simp only [Option.bind_eq_bind, Option.bind_eq_some] at h
  obtain ⟨r1, h1, h⟩ := h
  obtain ⟨r2, h2, h⟩ := h
  obtain ⟨⟨g2, r3⟩, h3, h⟩ := h
  obtain ⟨r4, h4, h⟩ := h
  obtain ⟨⟨g3, r5⟩, h5, h⟩ := h
  obtain ⟨r6, h6, h⟩ := h
  obtain ⟨⟨g4, r7⟩, h7, h⟩ := h
  obtain ⟨r8, h8, h⟩ := h
  obtain ⟨⟨g5, r9⟩, h9, h⟩ := h
  obtain ⟨r10, h10, h⟩ := h
  obtain ⟨⟨gr, r11⟩, h11, h⟩ := h
  obtain ⟨r12, h12, h⟩ := h
  obtain ⟨⟨pt, r13⟩, h13, h⟩ := h
  simp only [Option.some.injEq] at h
  subst h
  exact ⟨⟨r2, g2, r3, h3, rfl⟩, ⟨r4, g3, r5, h5, rfl⟩,
    ⟨r6, g4, r7, h7, rfl⟩, ⟨r8, g5, r9, h9, rfl⟩,
    ⟨r12, pt, r13, h13, rfl⟩, ⟨r10, gr, r11, h11, rfl⟩⟩

theorem searchPrimary_primAt :
    ∀ (ct : Str) (i st : Nat) (pg : PG), searchPrimary ct i = some (st, pg) →
      ∃ u, primAt u = some pg := by
  intro ct
  induction ct with
  | nil => intro i st pg h; simp [searchPrimary] at h
  | cons c rest ih =>
    intro i st pg h
    rw [searchPrimary] at h
    cases hp : primAt (c :: rest) with
    | some pg2 =>
      rw [hp] at h
      simp only [Option.some.injEq, Prod.mk.injEq] at h
      exact ⟨c :: rest, by rw [hp, h.2]⟩
    | none =>
      rw [hp] at h
      exact ih (i + 1) st pg h

/-! ## C1 (amended): grade provenance -/

theorem tryAlts_mem :
    ∀ (alts : List (Str × Bool)) (s g r : Str), tryAlts alts s = some (g, r) →
      ∃ a ∈ alts, g = a.1 ∨ (a.2 = true ∧ g = a.1 ++ ['+']) := by
  intro alts
  induction alts with
  | nil => intro s g r h; simp [tryAlts] at h
  | cons a rest ih =>
    intro s g r h
    obtain ⟨t, pl⟩ := a
    rw [tryAlts] at h
    cases hs : stripLit t s with
    | none =>
      rw [hs] at h
      obtain ⟨b, hb, hg⟩ := ih s g r h
      exact ⟨b, List.mem_cons_of_mem _ hb, hg⟩
    | some rr =>
      rw [hs] at h
      by_cases hpl : pl = true
      · simp only [hpl, if_pos] at h
        split at h
        · simp only [Option.some.injEq, Prod.mk.injEq] at h
          exact ⟨(t, pl), List.mem_cons_self _ _, Or.inr ⟨hpl, h.1.symm⟩⟩
        · simp only [Option.some.injEq, Prod.mk.injEq] at h
          exact ⟨(t, pl), List.mem_cons_self _ _, Or.inl h.1.symm⟩
      · simp only [hpl, if_false, Bool.false_eq_true] at h
        simp only [Option.some.injEq, Prod.mk.injEq] at h
        exact ⟨(t, pl), List.mem_cons_self _ _, Or.inl h.1.symm⟩

theorem gradeTok_gradeMem {s g r : Str} (h : gradeTok s = some (g, r)) :
    gradeMem (stripList g) = true := by
  obtain ⟨a, ha, hg⟩ := tryAlts_mem gradeAlts s g r h
  fin_cases ha <;> rcases hg with rfl | ⟨hf, rfl⟩ <;> first
    | decide
    | exact absurd hf (by decide)

/-- C1 (amended): every record emitted by the primary combined-pattern
path carries a grade from the closed grade-symbol set (which includes
`--`); a record emitted by the fallback path carries a grade from that
set whenever the fifth post-language token belongs to the set (the grade
then being that token).  When the fifth token is outside the set, the
fallback path stores the sixth token as the grade verbatim, with no
membership guarantee (see the counterexample). -/
theorem c1_amended :
    (∀ sem code ct rec, primaryRow sem code ct = some rec →
      gradeMem rec.grade = true) ∧
    (∀ sem code ct ls le parts p4 rec, parts[4]? = some p4 →
      gradeMem p4 = true → fallbackBody sem code ct ls le parts = some rec →
      rec.grade = p4) := by
  constructor
  · intro sem code ct rec h
    unfold primaryRow at h
    cases hs : searchPrimary ct 0 with
    | none => rw [hs] at h; exact absurd h (by simp)
    | some v =>
      obtain ⟨st, pg⟩ := v
      rw [hs] at h
      simp only [Option.some.injEq] at h
      obtain ⟨u, hu⟩ := searchPrimary_primAt ct 0 st pg hs
      obtain ⟨-, -, -, -, -, w, g, r, hg, hpg⟩ := primAt_inv hu
      have : rec.grade = stripList pg.grade := by rw [← h]
      rw [this, hpg]
      exact gradeTok_gradeMem hg
  · intro sem code ct ls le parts p4 rec h4 hmem h
    unfold fallbackBody at h
    split at h
    · rename_i th lb lc ec p4' p5 h0 h1 h2 h3 h4' h5
      rw [h4] at h4'
      simp only [Option.some.injEq] at h4'
      subst h4'
      simp only [hmem, if_pos, Option.some.injEq] at h
      rw [← h]
    · exact absurd h (by simp)

def ctC1p : Str := "Tr 3 0 3.0 5.0 AA 4.00".toList

def recC1p : Course :=
  ⟨"s".toList, "c".toList, [], "Tr".toList, "3".toList, "0".toList,
   "3.0".toList, "5.0".toList, "AA".toList, "4.00".toList, []⟩

def partsC1f : List Str :=
  ["1".toList, "0".toList, "2.0".toList, "3.0".toList, "CC".toList,
   "88".toList]

def recC1f : Course :=
  ⟨"s".toList, "c".toList, [], "Tr".toList, "1".toList, "0".toList,
   "2.0".toList, "3.0".toList, "CC".toList, "88".toList, []⟩

theorem c1_amended_witness :
    gradeMem recC1p.grade = true ∧ recC1f.grade = "CC".toList :=
  ⟨c1_amended.1 "s".toList "c".toList ctC1p recC1p (by decide),
   c1_amended.2 "s".toList "c".toList "Tr".toList 0 2 partsC1f
     "CC".toList recC1f (by decide) (by decide) (by decide)⟩

/-! ## C5 (amended): numeric fields on the primary path -/

theorem dropWhile_nil_of_all {p : Char → Bool} {l : Str}
    (h : ∀ x ∈ l, p x = true) : l.dropWhile p = [] := by
  induction l with
  | nil => rfl
  | cons c r ih =>
    rw [List.dropWhile_cons_of_pos (h c (by simp))]
    exact ih fun x hx => h x (List.mem_cons_of_mem _ hx)

theorem digits1_numeric {s d r : Str} (h : digits1 s = some (d, r)) :
    isNumericStr d = true := by
  unfold digits1 at h
  split at h
  · exact absurd h (by simp)
  · rename_i hne
    simp only [Option.some.injEq, Prod.mk.injEq] at h
    obtain ⟨rfl, -⟩ := h
    have hall : ∀ x ∈ s.takeWhile isDigit, isDigit x = true :=
      fun x hx => List.mem_takeWhile_imp hx
    cases hd : s.takeWhile isDigit with
    | nil => exact absurd hd hne
    | cons c t =>
      rw [hd] at hall
      rw [isNumericStr]
      rw [dropWhile_nil_of_all hall]
      simp [hall c (by simp)]

theorem numTok_numeric {s d r : Str} (h : numTok s = some (d, r)) :
    isNumericStr d = true := by
  unfold numTok at h
  split at h
  · exact absurd h (by simp)
  · rename_i hne
    have hall : ∀ x ∈ s.takeWhile isDigit, isDigit x = true :=
      fun x hx => List.mem_takeWhile_imp hx
    split at h <;> simp only [Option.some.injEq, Prod.mk.injEq] at h <;>
      obtain ⟨rfl, -⟩ := h
    · -- decimal-point branch: d = digits ++ '.' :: digits
      rename_i r2 hdrop
      cases hd : s.takeWhile isDigit with
      | nil => exact absurd hd hne
      | cons c t =>
        rw [hd] at hall
        have hc : isDigit c = true := hall c (by simp)
        have hsplit : ((c :: t) ++ '.' :: r2.takeWhile isDigit).dropWhile isDigit
            = '.' :: r2.takeWhile isDigit := by
          rw [List.dropWhile_append_of_pos hall,
            List.dropWhile_cons_of_neg (by decide)]
        rw [show ((c :: t) ++ '.' :: r2.takeWhile isDigit)
            = c :: (t ++ '.' :: r2.takeWhile isDigit) from rfl]
        rw [isNumericStr]
        rw [show (c :: (t ++ '.' :: r2.takeWhile isDigit)).dropWhile isDigit
            = '.' :: r2.takeWhile isDigit from hsplit]
        simp only [hc, Bool.true_and]
        exact List.all_eq_true.2 fun x hx => List.mem_takeWhile_imp hx
    · -- no decimal point: d = the digit run
      cases hd : s.takeWhile isDigit with
      | nil => exact absurd hd hne
      | cons c t =>
        rw [hd] at hall
        rw [isNumericStr]
        rw [dropWhile_nil_of_all hall]
        simp [hall c (by simp)]

/-- C5 (amended): on the primary combined-pattern path all five numeric
fields are numeric strings of the shape digits-optional-point-digits.  On
the fallback path the fields are whitespace-split tokens taken
positionally, with no numeric guarantee (see the counterexample). -/
theorem c5_amended :
    ∀ sem code ct rec, primaryRow sem code ct = some rec →
      isNumericStr rec.theory_hours = true ∧
      isNumericStr rec.lab_hours = true ∧
      isNumericStr rec.local_credits = true ∧
      isNumericStr rec.ects_credits = true ∧
      isNumericStr rec.points = true := by
  intro sem code ct rec h
  unfold primaryRow at h
  cases hs : searchPrimary ct 0 with
  | none => rw [hs] at h; exact absurd h (by simp)
  | some v =>
    obtain ⟨st, pg⟩ := v
    rw [hs] at h
    simp only [Option.some.injEq] at h
    obtain ⟨u, hu⟩ := searchPrimary_primAt ct 0 st pg hs
    obtain ⟨⟨u2, d2, r2, hd2, he2⟩, ⟨u3, d3, r3, hd3, he3⟩,
      ⟨u4, d4, r4, hd4, he4⟩, ⟨u5, d5, r5, hd5, he5⟩,
      ⟨u7, d7, r7, hd7, he7⟩, -⟩ := primAt_inv hu
    have hth : rec.theory_hours = pg.g2 := by rw [← h]
    have hlb : rec.lab_hours = pg.g3 := by rw [← h]
    have hlc : rec.local_credits = pg.g4 := by rw [← h]
    have hec : rec.ects_credits = pg.g5 := by rw [← h]
    have hpt : rec.points = pg.pts := by rw [← h]
    refine ⟨?_, ?_, ?_, ?_, ?_⟩
    · rw [hth, he2]; exact digits1_numeric hd2
    · rw [hlb, he3]; exact digits1_numeric hd3
    · rw [hlc, he4]; exact numTok_numeric hd4
    · rw [hec, he5]; exact numTok_numeric hd5
    · rw [hpt, he7]; exact numTok_numeric hd7

def ctC5w : Str := "İng. 2 1 2.5 4.5 BA+ 3.50 MU".toList

def recC5w : Course :=
  ⟨"s".toList, "c".toList, [], "İng.".toList, "2".toList, "1".toList,
   "2.5".toList, "4.5".toList, "BA+".toList, "3.50".toList, "MU".toList⟩

theorem c5_amended_witness :
    isNumericStr recC5w.theory_hours = true ∧
    isNumericStr recC5w.lab_hours = true ∧
    isNumericStr recC5w.local_credits = true ∧
    isNumericStr recC5w.ects_credits = true ∧
    isNumericStr recC5w.points = true :=
  c5_amended "s".toList "c".toList ctC5w recC5w (by decide)

/-! ## C6: the fallback path's positional token protocol -/

theorem fallbackRow_eq (sem code ct : Str) (ls le : Nat)
    (hlang : (finditer langLit ct).getLast? = some (ls, le)) :
    fallbackRow sem code ct
      = if 6 ≤ (splitWs (stripList (ct.drop le))).length
        then fallbackBody sem code ct ls le (splitWs (stripList (ct.drop le)))
        else none := by
  unfold fallbackRow
  rw [hlang]

/-- C6: on the fallback path the text after the last language-token
occurrence is split on whitespace; with fewer than six tokens no record is
emitted; otherwise the first four tokens become the four figures in order,
token five is the grade and token six the points exactly when token five
belongs to the closed grade-symbol set (otherwise the two are swapped),
and a seventh token, if present, becomes the comment. -/
theorem c6_fallback (sem code ct : Str) (ls le : Nat)
    (hlang : (finditer langLit ct).getLast? = some (ls, le)) :
    ((splitWs (stripList (ct.drop le))).length < 6 →
      fallbackRow sem code ct = none) ∧
    (∀ th lb lc ec p4 p5,
      (splitWs (stripList (ct.drop le)))[0]? = some th →
      (splitWs (stripList (ct.drop le)))[1]? = some lb →
      (splitWs (stripList (ct.drop le)))[2]? = some lc →
      (splitWs (stripList (ct.drop le)))[3]? = some ec →
      (splitWs (stripList (ct.drop le)))[4]? = some p4 →
      (splitWs (stripList (ct.drop le)))[5]? = some p5 →
      fallbackRow sem code ct = some
        { semester := sem, code := code,
          name := cleanName (stripList (ct.take ls)),
          language := stripList (slice ct ls le),
          theory_hours := th, lab_hours := lb, local_credits := lc,
          ects_credits := ec,
          grade := if gradeMem p4 then p4 else p5,
          points := if gradeMem p4 then p5 else p4,
          comment := (splitWs (stripList (ct.drop le))).getD 6 [] }) := by
  rw [fallbackRow_eq sem code ct ls le hlang]
  constructor
  · intro hlen
    rw [if_neg (by omega)]
  · intro th lb lc ec p4 p5 h0 h1 h2 h3 h4 h5
    have hlen : 6 ≤ (splitWs (stripList (ct.drop le))).length := by
      by_contra hlt
      rw [List.getElem?_eq_none (by omega)] at h5
      exact absurd h5 (by simp)
    rw [if_pos hlen]
    unfold fallbackBody
    rw [h0, h1, h2, h3, h4, h5]
    by_cases hg : gradeMem p4 = true <;> simp [hg]

def ctC6w : Str := "Name Tr 1 0 2.0 3.0 75 CC EX".toList

def recC6w : Course :=
  ⟨"s".toList, "c".toList, "Name".toList, "Tr".toList, "1".toList,
   "0".toList, "2.0".toList, "3.0".toList, "CC".toList, "75".toList,
   "EX".toList⟩

theorem c6_fallback_witness :
    fallbackRow "s".toList "c".toList ctC6w = some recC6w := by
  have h := (c6_fallback "s".toList "c".toList ctC6w 5 7 (by decide)).2
    "1".toList "0".toList "2.0".toList "3.0".toList "75".toList "CC".toList
    (by decide) (by decide) (by decide) (by decide) (by decide) (by decide)
  rw [h]
  decide

/-! ## C8: an exception inside the fallback body skips the row cleanly -/

/-- C8: if the fallback path's positional extraction fails (the modelled
`except` path), the row yields no record, and a row yielding no record
leaves the accumulated record list exactly as it would be without that
row while later rows are processed normally (`filterMap` over the
remaining rows is unchanged). -/
theorem c8_exception (sem code rt : Str) (ls le : Nat)
    (hlang : (finditer langLit rt).getLast? = some (ls, le))
    (hbody : fallbackBody sem code rt ls le
      (splitWs (stripList (rt.drop le))) = none) :
    fallbackRow sem code rt = none ∧
    ∀ (semB ct : Str) (pre post : List ((Nat × Nat) × Nat))
      (m : (Nat × Nat) × Nat),
      processRow semB ct m = none →
      (pre ++ m :: post).filterMap (processRow semB ct)
        = (pre ++ post).filterMap (processRow semB ct) := by
  constructor
  · rw [fallbackRow_eq sem code rt ls le hlang]
    by_cases h6 : 6 ≤ (splitWs (stripList (rt.drop le))).length
    · rw [if_pos h6]
      exact hbody
    · rw [if_neg h6]
  · intro semB ct pre post m hm
    rw [List.filterMap_append, List.filterMap_append,
      List.filterMap_cons_none hm]

theorem c8_exception_witness :
    fallbackRow "s".toList "c".toList "Tr".toList = none ∧
    ([((3, 9), 9)] ++ [((10, 16), 16)]
        : List ((Nat × Nat) × Nat)).filterMap
        (processRow "s".toList "x".toList)
      = ([((10, 16), 16)] : List ((Nat × Nat) × Nat)).filterMap
          (processRow "s".toList "x".toList) := by
  have h := c8_exception "s".toList "c".toList "Tr".toList 0 2
    (by decide) (by decide)
  exact ⟨h.1, h.2 "s".toList "x".toList [] [((10, 16), 16)] ((3, 9), 9)
    (by decide)⟩

/-! ## C2 (amended): footer truncation -/

theorem containsSub_iff (pat l : Str) :
    containsSub pat l = true ↔ ∃ u v, l = u ++ pat ++ v := by
  unfold containsSub
  induction l with
  | nil =>
    rw [firstOcc]
    by_cases hp : pat.isPrefixOf [] = true
    · have hpat : pat = [] := by
        simpa using List.isPrefixOf_iff_prefix.1 hp
      rw [if_pos hp]
      simp [hpat]
    · rw [if_neg hp]
      simp only [Option.isSome_none, Bool.false_eq_true, false_iff]
      rintro ⟨u, v, huv⟩
      apply hp
      rw [List.isPrefixOf_iff_prefix]
      have h2 : u ++ (pat ++ v) = [] := by simpa using huv.symm
      rcases List.append_eq_nil.1 h2 with ⟨rfl, h3⟩
      rcases List.append_eq_nil.1 h3 with ⟨rfl, rfl⟩
      exact List.nil_prefix
  | cons c r ih =>
    rw [firstOcc]
    by_cases hp : pat.isPrefixOf (c :: r) = true
    · rw [if_pos hp]
      simp only [Option.isSome_some, true_iff]
      obtain ⟨t, ht⟩ := List.isPrefixOf_iff_prefix.1 hp
      exact ⟨[], t, by simp [← ht]⟩
    · rw [if_neg hp]
      have hmap : (Option.map (fun x => x + 1) (firstOcc pat r)).isSome
          = (firstOcc pat r).isSome := by
        cases firstOcc pat r <;> rfl
      rw [hmap, ih]
      constructor
      · rintro ⟨u, v, rfl⟩
        exact ⟨c :: u, v, rfl⟩
      · rintro ⟨u, v, huv⟩
        cases u with
        | nil =>
          exfalso
          apply hp
          rw [List.isPrefixOf_iff_prefix]
          exact ⟨v, by simpa using huv.symm⟩
        | cons a u' =>
          simp only [List.cons_append, List.cons.injEq] at huv
          exact ⟨u', v, huv.2⟩

theorem containsSub_stripList {pat l : Str}
    (h : containsSub pat (stripList l) = true) : containsSub pat l = true := by
  rw [containsSub_iff] at h ⊢
  obtain ⟨u, v, huv⟩ := h
  obtain ⟨a, b, hab⟩ := stripList_infix l
  exact ⟨a ++ u, v ++ b, by rw [hab, huv]; simp⟩

/-- Text strictly before the first occurrence of `pat` contains no
occurrence of `pat`. -/
theorem firstOcc_take {pat : Str} (hne : pat ≠ []) :
    ∀ (ct : Str) (k : Nat), firstOcc pat ct = some k →
      containsSub pat (ct.take k) = false := by
  intro ct
  induction ct with
  | nil =>
    intro k h
    rw [firstOcc] at h
    have hp : ¬ pat.isPrefixOf [] = true := by
      intro hp
      exact hne (by simpa using List.isPrefixOf_iff_prefix.1 hp)
    rw [if_neg hp] at h
    exact absurd h (by simp)
  | cons c r ih =>
    intro k h
    rw [firstOcc] at h
    by_cases hp : pat.isPrefixOf (c :: r) = true
    · rw [if_pos hp] at h
      simp only [Option.some.injEq] at h
      subst h
      rw [List.take_zero]
      unfold containsSub
      rw [firstOcc]
      have hp0 : ¬ pat.isPrefixOf [] = true := by
        intro hp0
        exact hne (by simpa using List.isPrefixOf_iff_prefix.1 hp0)
      rw [if_neg hp0]
      rfl
    · rw [if_neg hp] at h
      cases hfo : firstOcc pat r with
      | none => rw [hfo] at h; exact absurd h (by simp)
      | some k' =>
        rw [hfo] at h
        simp only [Option.map_some', Option.some.injEq] at h
        subst h
        rw [List.take_succ_cons]
        unfold containsSub
        rw [firstOcc]
        have hp2 : ¬ pat.isPrefixOf (c :: r.take k') = true := by
          intro hp2
          apply hp
          rw [List.isPrefixOf_iff_prefix] at hp2 ⊢
          exact hp2.trans
            (List.cons_prefix_cons.2 ⟨rfl, List.take_prefix k' r⟩)
        rw [if_neg hp2]
        have hik := ih k' hfo
        unfold containsSub at hik
        cases hik2 : firstOcc pat (r.take k') with
        | none => simp [hik2]
        | some j => rw [hik2] at hik; exact absurd hik (by simp)

/-- C2 (amended): a row containing at least one footer marker is
truncated, before field extraction, at the first occurrence of the
first marker **in the fixed list order** that occurs anywhere in the row
(not at the earliest-occurring marker); that chosen marker and everything
from its first occurrence onward are discarded and do not occur in the
truncated row text used for extraction.  Markers later in the list may
survive the cut and can appear in the extracted name (see the
counterexample). -/
theorem c2_amended (ct ind : Str)
    (h : footerMarkers.find? (fun i => containsSub i ct) = some ind) :
    ∃ k, firstOcc ind ct = some k ∧
      truncFooter ct = stripList (ct.take k) ∧
      containsSub ind (truncFooter ct) = false := by
  have hmem : ind ∈ footerMarkers := List.mem_of_find?_eq_some h
  have hne : ind ≠ [] := by
    fin_cases hmem <;> decide
  have hcont : containsSub ind ct = true := by
    have := List.find?_some (p := fun i => containsSub i ct) h
    simpa using this
  unfold containsSub at hcont
  cases hk : firstOcc ind ct with
  | none => rw [hk] at hcont; exact absurd hcont (by simp)
  | some k =>
    have htr : truncFooter ct = stripList (ct.take k) := by
      unfold truncFooter
      rw [h]
      show (match firstOcc ind ct with
            | some j => stripList (ct.take j)
            | none => ct) = stripList (ct.take k)
      rw [hk]
    refine ⟨k, rfl, htr, ?_⟩
    rw [htr]
    have h1 := firstOcc_take hne ct k hk
    cases hcase : containsSub ind (stripList (ct.take k)) with
    | false => rfl
    | true =>
      exact absurd (containsSub_stripList hcase) (by rw [h1]; simp)

def ctC2w : Str :=
  "Alpha Öğrenci No Beta Tr 3 0 3.0 5.0 AA 4.00 www.turkiye.gov.tr tail".toList

theorem c2_amended_witness :
    ∃ k, firstOcc "www.turkiye.gov.tr".toList ctC2w = some k ∧
      truncFooter ctC2w = stripList (ctC2w.take k) ∧
      containsSub "www.turkiye.gov.tr".toList (truncFooter ctC2w) = false :=
  c2_amended ctC2w "www.turkiye.gov.tr".toList (by decide)

/-! ## C10: the course-code pattern's mandatory trailing whitespace -/

theorem upper_not_space {c : Char} (h : isUpper c = true) :
    isSpace c = false := by
  unfold isSpace
  simp only [Bool.or_eq_false_iff, decide_eq_false_iff_not]
  refine ⟨⟨⟨⟨⟨?_, ?_⟩, ?_⟩, ?_⟩, ?_⟩, ?_⟩ <;> rintro rfl <;>
    exact absurd h (by decide)

theorem digit_not_space {c : Char} (h : isDigit c = true) :
    isSpace c = false := by
  unfold isSpace
  simp only [Bool.or_eq_false_iff, decide_eq_false_iff_not]
  refine ⟨⟨⟨⟨⟨?_, ?_⟩, ?_⟩, ?_⟩, ?_⟩, ?_⟩ <;> rintro rfl <;>
    exact absurd h (by decide)

theorem upper_ne_star {c : Char} (h : isUpper c = true) : c ≠ '*' := by
  rintro rfl
  exact absurd h (by decide)

theorem space_ne_star {c : Char} (h : isSpace c = true) : c ≠ '*' := by
  rintro rfl
  exact absurd h (by decide)

theorem dropStar_cons_ne {c0 : Char} (q : Str) (hc : c0 ≠ '*') :
    dropStar (c0 :: q) = c0 :: q := by
  unfold dropStar
  split
  · rename_i heq
    rw [List.cons.injEq] at heq
    exact absurd heq.1 hc
  · rfl

theorem dropStar_split (s : Str) :
    ∃ p0, (p0 = [] ∨ p0 = ['*']) ∧ s = p0 ++ dropStar s := by
  cases s with
  | nil => exact ⟨[], Or.inl rfl, rfl⟩
  | cons c0 q =>
    by_cases hc : c0 = '*'
    · subst hc
      exact ⟨['*'], Or.inr rfl, rfl⟩
    · refine ⟨[], Or.inl rfl, ?_⟩
      rw [dropStar_cons_ne q hc]
      rfl

/-- Every successful course-code match ends in a whitespace character: the
input splits as matched-part (ending in a whitespace char `w`) followed by
the remainder. -/
theorem courseMatch_some_split {s r : Str} (h : courseMatch s = some r) :
    ∃ pre w, s = pre ++ w :: r ∧ isSpace w = true := by
  unfold courseMatch at h
  split at h
  · rename_i a b c r2 heq1
    split at h
    · rename_i hup
      split at h
      · exact absurd h (by simp)
      · rename_i hws
        split at h
        · rename_i d1 d2 d3 r3 heq2
          split at h
          · rename_i hdig
            split at h
            · rename_i w r4 heq3
              split at h
              · rename_i hw
                simp only [Option.some.injEq] at h
                subst h
                obtain ⟨p0, -, hs⟩ := dropStar_split s
                have e1 : dropStar s
                    = (dropStar s).takeWhile isSpace ++ a :: b :: c :: r2 := by
                  conv_lhs =>
                    rw [← List.takeWhile_append_dropWhile isSpace (dropStar s),
                      heq1]
                have e2 : r2
                    = r2.takeWhile isSpace ++ d1 :: d2 :: d3 :: r3 := by
                  conv_lhs =>
                    rw [← List.takeWhile_append_dropWhile isSpace r2, heq2]
                have e3 : r3 = r3.takeWhile isUpper ++ w :: r4 := by
                  conv_lhs =>
                    rw [← List.takeWhile_append_dropWhile isUpper r3, heq3]
                refine ⟨p0 ++ (dropStar s).takeWhile isSpace ++ [a, b, c]
                  ++ r2.takeWhile isSpace ++ [d1, d2, d3]
                  ++ r3.takeWhile isUpper, w, ?_, hw⟩
                conv_lhs => rw [hs, e1, e2, e3]
                simp [List.append_assoc]
              · exact absurd h (by simp)
            · exact absurd h (by simp)
          · exact absurd h (by simp)
        · exact absurd h (by simp)
    · exact absurd h (by simp)
  · exact absurd h (by simp)

/-- A well-formed course code (optional `*`, optional whitespace, three
uppercase letters, whitespace, three digits, trailing uppercase letters)
sitting at the very end of the text, with no character after it, produces
no course-code match. -/
theorem courseMatch_end_none (st w1 : Str) (u1 u2 u3 : Char) (w2 : Str)
    (d1 d2 d3 : Char) (us : Str)
    (hst : st = [] ∨ st = ['*'])
    (hw1 : ∀ x ∈ w1, isSpace x = true)
    (hu1 : isUpper u1 = true) (hu2 : isUpper u2 = true)
    (hu3 : isUpper u3 = true)
    (hw2ne : w2 ≠ []) (hw2 : ∀ x ∈ w2, isSpace x = true)
    (hd1 : isDigit d1 = true) (hd2 : isDigit d2 = true)
    (hd3 : isDigit d3 = true)
    (hus : ∀ x ∈ us, isUpper x = true) :
    courseMatch (st ++ w1 ++ u1 :: u2 :: u3 :: (w2 ++ d1 :: d2 :: d3 :: us))
      = none := by
  rcases List.exists_cons_of_ne_nil hw2ne with ⟨y, w2', rfl⟩
  have hu1s : isSpace u1 = false := upper_not_space hu1
  have hd1s : isSpace d1 = false := digit_not_space hd1
  have hy : isSpace y = true := hw2 y (by simp)
  have hB : List.dropWhile isSpace
      (w1 ++ u1 :: u2 :: u3 :: y :: (w2' ++ d1 :: d2 :: d3 :: us))
      = u1 :: u2 :: u3 :: y :: (w2' ++ d1 :: d2 :: d3 :: us) := by
    rw [show (u1 :: u2 :: u3 :: y :: (w2' ++ d1 :: d2 :: d3 :: us))
        = (u1 :: u2 :: u3 :: ((y :: w2') ++ d1 :: d2 :: d3 :: us)) from rfl]
    rw [List.dropWhile_append_of_pos hw1,
      List.dropWhile_cons_of_neg (by simp [hu1s])]
  have hC : List.takeWhile isSpace (y :: (w2' ++ d1 :: d2 :: d3 :: us))
      = y :: w2' := by
    rw [show (y :: (w2' ++ d1 :: d2 :: d3 :: us))
        = ((y :: w2') ++ d1 :: d2 :: d3 :: us) from rfl]
    rw [List.takeWhile_append_of_pos hw2,
      List.takeWhile_cons_of_neg (by simp [hd1s])]
    simp
  have hD : List.dropWhile isSpace (y :: (w2' ++ d1 :: d2 :: d3 :: us))
      = d1 :: d2 :: d3 :: us := by
    rw [show (y :: (w2' ++ d1 :: d2 :: d3 :: us))
        = ((y :: w2') ++ d1 :: d2 :: d3 :: us) from rfl]
    rw [List.dropWhile_append_of_pos hw2,
      List.dropWhile_cons_of_neg (by simp [hd1s])]
  have hE : us.dropWhile isUpper = [] := dropWhile_nil_of_all hus
  have hA : dropStar
      (st ++ w1 ++ u1 :: u2 :: u3 :: (y :: w2' ++ d1 :: d2 :: d3 :: us))
      = w1 ++ u1 :: u2 :: u3 :: (y :: w2' ++ d1 :: d2 :: d3 :: us) := by
    rcases hst with rfl | rfl
    · cases w1 with
      | nil =>
        simp only [List.nil_append]
        exact dropStar_cons_ne _ (upper_ne_star hu1)
      | cons x w1'' =>
        simp only [List.nil_append, List.cons_append]
        exact dropStar_cons_ne _ (space_ne_star (hw1 x (by simp)))
    · rfl
  unfold courseMatch
  rw [hA]
  simp [hB, hC, hD, hE, hu1, hu2, hu3, hd1, hd2, hd3, hy]

/-- C10: every course-code match's matched span ends with the mandatory
whitespace character (so every emitted record's row begins after a code
match followed by whitespace), and a well-formed course code at the very
end of the cleaned text, with no following character, yields no match and
hence starts no course row. -/
theorem c10_trailing :
    (∀ s r, courseMatch s = some r →
      ∃ pre w, s = pre ++ w :: r ∧ isSpace w = true) ∧
    (∀ (st w1 : Str) (u1 u2 u3 : Char) (w2 : Str) (d1 d2 d3 : Char)
      (us : Str),
      st = [] ∨ st = ['*'] →
      (∀ x ∈ w1, isSpace x = true) →
      isUpper u1 = true → isUpper u2 = true → isUpper u3 = true →
      w2 ≠ [] → (∀ x ∈ w2, isSpace x = true) →
      isDigit d1 = true → isDigit d2 = true → isDigit d3 = true →
      (∀ x ∈ us, isUpper x = true) →
      courseMatch (st ++ w1 ++ u1 :: u2 :: u3 :: (w2 ++ d1 :: d2 :: d3 :: us))
        = none) :=
  ⟨fun _ _ h => courseMatch_some_split h,
   fun st w1 u1 u2 u3 w2 d1 d2 d3 us hst hw1 hu1 hu2 hu3 hw2ne hw2 hd1
     hd2 hd3 hus =>
     courseMatch_end_none st w1 u1 u2 u3 w2 d1 d2 d3 us hst hw1 hu1 hu2
       hu3 hw2ne hw2 hd1 hd2 hd3 hus⟩

/-! ## Record-shape inversion: code and name of every emitted record -/

theorem primaryRow_fields {sem code ct : Str} {rec : Course}
    (h : primaryRow sem code ct = some rec) :
    rec.code = code ∧ ∃ np, rec.name = cleanName np := by
  unfold primaryRow at h
  split at h
  · exact absurd h (by simp)
  · rename_i v st pg heq
    simp only [Option.some.injEq] at h
    subst h
    exact ⟨rfl, stripList (ct.take st), rfl⟩

theorem fallbackBody_fields {sem code ct : Str} {ls le : Nat}
    {parts : List Str} {rec : Course}
    (h : fallbackBody sem code ct ls le parts = some rec) :
    rec.code = code ∧ ∃ np, rec.name = cleanName np := by
  unfold fallbackBody at h
  split at h
  · simp only [Option.some.injEq] at h
    subst h
    exact ⟨rfl, stripList (ct.take ls), rfl⟩
  · exact absurd h (by simp)

theorem fallbackRow_fields {sem code ct : Str} {rec : Course}
    (h : fallbackRow sem code ct = some rec) :
    rec.code = code ∧ ∃ np, rec.name = cleanName np := by
  unfold fallbackRow at h
  split at h
  · exact absurd h (by simp)
  · rename_i v ls le heq
    split at h
    · exact fallbackBody_fields h
    · exact absurd h (by simp)

/-- Every record produced from a row carries the normalized code computed
from the code-match span, and a name produced by `cleanName`. -/
theorem processRow_some {sem ct : Str} {m : (Nat × Nat) × Nat} {rec : Course}
    (h : processRow sem ct m = some rec) :
    rec.code = stripList (removeStar (slice ct m.1.1 (m.1.2 - 1))) ∧
    ∃ np, rec.name = cleanName np := by
  unfold processRow at h
  split at h
  · split at h
    · rename_i rec' hp
      simp only [Option.some.injEq] at h
      subst h
      exact primaryRow_fields hp
    · exact fallbackRow_fields h
  · exact absurd h (by simp)

/-- C3 (amended): every emitted record's code contains no `*` and has no
leading or trailing whitespace; internal whitespace between the letter
prefix and the digit part is kept verbatim from the matched text (and can
contain multi-space runs, see the counterexample). -/
theorem c3_amended :
    ∀ t rec, rec ∈ parse_transcript t →
      '*' ∉ rec.code ∧
      (∀ c, rec.code.head? = some c → isSpace c = false) ∧
      (∀ c, rec.code.getLast? = some c → isSpace c = false) := by
  intro t rec hmem
  simp only [parse_transcript, List.mem_flatMap] at hmem
  obtain ⟨p, -, hmem⟩ := hmem
  simp only [processBlock, List.mem_filterMap] at hmem
  obtain ⟨m, -, hrow⟩ := hmem
  obtain ⟨hcode, -⟩ := processRow_some hrow
  refine ⟨?_, ?_, ?_⟩
  · rw [hcode]
    intro hmem2
    exact star_not_mem_removeStar _ (mem_stripList hmem2)
  · intro c hc
    rw [hcode] at hc
    exact stripList_head hc
  · intro c hc
    rw [hcode] at hc
    exact stripList_last hc

def exW3 : Str :=
  "2023-2024 Güz Dönemi\nFIZ 102E Mechanics (Fizik) Tr 2 1 2.5 4.5 BB+ 3.00".toList

def recW3 : Course :=
  ⟨"2023-2024 Güz Dönemi".toList, "FIZ 102E".toList, "Mechanics".toList,
   "Tr".toList, "2".toList, "1".toList, "2.5".toList, "4.5".toList,
   "BB+".toList, "3.00".toList, []⟩

theorem c3_amended_witness :
    '*' ∉ recW3.code ∧
    (∀ c, recW3.code.head? = some c → isSpace c = false) ∧
    (∀ c, recW3.code.getLast? = some c → isSpace c = false) :=
  c3_amended exW3 recW3 (by decide)

/-! ## C7: cleaned names -/

/-- No `(` is ever followed (anywhere later) by a `)`; in particular the
string contains no parenthesized substring `(...)`. -/
def noPP (l : Str) : Bool :=
  match l.dropWhile (fun c => c ≠ '(') with
  | [] => true
  | _ :: t => t.all (fun c => c ≠ ')')

/-- No two adjacent space characters. -/
def noDS : Str → Bool
  | a :: b :: t => !(a = ' ' && b = ' ') && noDS (b :: t)
  | _ => true

theorem parenMatchAt_mem {l r : Str} (h : parenMatchAt l = some r) :
    ∀ x ∈ r, x ∈ l := by
  unfold parenMatchAt at h
  split at h
  · rename_i r1 heq1
    split at h
    · rename_i r2 heq2
      simp only [Option.some.injEq] at h
      subst h
      intro x hx
      have h1 : x ∈ r2 := mem_dropWhile_sub hx
      have h2 : x ∈ r1 := by
        apply mem_dropWhile_sub (p := fun c => c ≠ ')')
        rw [heq2]
        exact List.mem_cons_of_mem _ h1
      apply mem_dropWhile_sub (p := isSpace)
      rw [heq1]
      exact List.mem_cons_of_mem _ h2
    · exact absurd h (by simp)
  · exact absurd h (by simp)

theorem parenMatchAt_len {l r : Str} (h : parenMatchAt l = some r) :
    r.length + 2 ≤ l.length := by
  unfold parenMatchAt at h
  split at h
  · rename_i r1 heq1
    split at h
    · rename_i r2 heq2
      simp only [Option.some.injEq] at h
      subst h
      have e1 : r1.length + 1 ≤ l.length := by
        have := length_dropWhile_le isSpace l
        rw [heq1] at this
        simpa using this
      have e2 : r2.length + 1 ≤ r1.length := by
        have := length_dropWhile_le (fun c => c ≠ ')') r1
        rw [heq2] at this
        simpa using this
      have e3 : (r2.dropWhile isSpace).length ≤ r2.length :=
        length_dropWhile_le isSpace r2
      omega
    · exact absurd h (by simp)
  · exact absurd h (by simp)

theorem parenMatchAt_none_no_close {rest : Str}
    (h : parenMatchAt ('(' :: rest) = none) : ∀ x ∈ rest, x ≠ ')' := by
  unfold parenMatchAt at h
  rw [List.dropWhile_cons_of_neg (by simp [isSpace])] at h
  have h2 : (match rest.dropWhile (fun c => c ≠ ')') with
      | ')' :: r2 => some (r2.dropWhile isSpace)
      | _ => none) = none := h
  intro x hx hxe
  subst hxe
  cases hdw : rest.dropWhile (fun c => c ≠ ')') with
  | nil =>
    have := all_of_dropWhile_nil hdw ')' hx
    simp at this
  | cons c t =>
    have hc := head_dropWhile_false (p := fun c => c ≠ ')') (l := rest)
      (by rw [hdw]; rfl)
    simp only [decide_eq_false_iff_not, not_not] at hc
    subst hc
    rw [hdw] at h2
    exact absurd h2 (by simp)

theorem mem_subParenAux : ∀ (fuel : Nat) (l : Str) (x : Char),
    x ∈ subParenAux fuel l → x ∈ l := by
  intro fuel
  induction fuel with
  | zero => intro l x hx; exact hx
  | succ fuel ih =>
    intro l x hx
    match l with
    | [] =>
      simp only [subParenAux] at hx
      exact hx
    | c :: rest =>
      rw [subParenAux] at hx
      cases hm : parenMatchAt (c :: rest) with
      | some r =>
        rw [hm] at hx
        exact parenMatchAt_mem hm x (ih r x hx)
      | none =>
        rw [hm] at hx
        rcases List.mem_cons.1 hx with rfl | hx2
        · exact List.mem_cons_self _ _
        · exact List.mem_cons_of_mem _ (ih rest x hx2)

theorem noPP_subParenAux : ∀ (fuel : Nat) (l : Str), l.length ≤ fuel →
    noPP (subParenAux fuel l) = true := by
  intro fuel
  induction fuel with
  | zero =>
    intro l hl
    have hnil : l = [] := List.length_eq_zero.1 (Nat.le_zero.1 hl)
    subst hnil
    rfl
  | succ fuel ih =>
    intro l hl
    match l with
    | [] => rfl
    | c :: rest =>
      rw [subParenAux]
      cases hm : parenMatchAt (c :: rest) with
      | some r =>
        apply ih
        have := parenMatchAt_len hm
        simp only [List.length_cons] at hl this
        omega
      | none =>
        by_cases hc : c = '('
        · subst hc
          have hnc : ∀ x ∈ rest, x ≠ ')' := parenMatchAt_none_no_close hm
          unfold noPP
          rw [List.dropWhile_cons_of_neg (by simp)]
          show (subParenAux fuel rest).all (fun c => c ≠ ')') = true
          rw [List.all_eq_true]
          intro x hx
          have hxr : x ∈ rest := mem_subParenAux fuel rest x hx
          simp [hnc x hxr]
        · have heq : noPP (c :: subParenAux fuel rest)
              = noPP (subParenAux fuel rest) := by
            unfold noPP
            rw [List.dropWhile_cons_of_pos (by simp [hc])]
          rw [heq]
          apply ih
          simp only [List.length_cons] at hl
          omega

def isParen (c : Char) : Bool := c = '(' || c = ')'

def pFilt (l : Str) : Str := l.filter isParen

theorem bool_eq_of_iff {a b : Bool} (h : a = true ↔ b = true) : a = b := by
  cases a <;> cases b <;> simp_all

theorem all_ne_close_pFilt (u : Str) :
    (pFilt u).all (fun c => c ≠ ')') = u.all (fun c => c ≠ ')') := by
  apply bool_eq_of_iff
  simp only [List.all_eq_true, pFilt, List.mem_filter,
    decide_eq_true_eq]
  constructor
  · intro h x hx
    by_cases hp : isParen x = true
    · exact h x ⟨hx, hp⟩
    · intro hxe
      subst hxe
      exact hp (by decide)
  · intro h x hx
    exact h x hx.1

theorem noPP_pFilt : ∀ l : Str, noPP (pFilt l) = noPP l := by
  intro l
  induction l with
  | nil => rfl
  | cons c t ih =>
    by_cases hpa : c = '('
    · subst hpa
      unfold noPP pFilt
      rw [List.filter_cons_of_pos (by decide)]
      rw [List.dropWhile_cons_of_neg (by simp)]
      rw [List.dropWhile_cons_of_neg (by simp)]
      show (pFilt t).all (fun c => c ≠ ')') = t.all (fun c => c ≠ ')')
      exact all_ne_close_pFilt t
    · by_cases hpb : c = ')'
      · subst hpb
        unfold noPP pFilt
        rw [List.filter_cons_of_pos (by decide)]
        rw [List.dropWhile_cons_of_pos (by simp)]
        rw [List.dropWhile_cons_of_pos (by simp)]
        exact ih
      · have hnp : isParen c = false := by
          unfold isParen
          simp [hpa, hpb]
        unfold noPP pFilt
        rw [List.filter_cons_of_neg (by simp [hnp])]
        rw [List.dropWhile_cons_of_pos (by simp [hpa])]
        exact ih

theorem space_not_paren {c : Char} (h : isSpace c = true) :
    isParen c = false := by
  unfold isParen
  simp only [Bool.or_eq_false_iff, decide_eq_false_iff_not]
  constructor <;> rintro rfl <;> exact absurd h (by decide)

theorem pFilt_dropWhile_space : ∀ l : Str,
    pFilt (l.dropWhile isSpace) = pFilt l := by
  intro l
  induction l with
  | nil => rfl
  | cons c t ih =>
    by_cases hc : isSpace c = true
    · rw [List.dropWhile_cons_of_pos (by simp [hc])]
      rw [ih]
      unfold pFilt
      rw [List.filter_cons_of_neg (by simp [space_not_paren hc])]
    · rw [List.dropWhile_cons_of_neg (by simp [hc])]

theorem pFilt_reverse (l : Str) : pFilt l.reverse = (pFilt l).reverse :=
  List.filter_reverse _ _

theorem pFilt_stripList (l : Str) : pFilt (stripList l) = pFilt l := by
  unfold stripList
  rw [pFilt_reverse, pFilt_dropWhile_space, pFilt_reverse,
    List.reverse_reverse, pFilt_dropWhile_space]

theorem pFilt_collapseAux : ∀ (fuel : Nat) (l : Str),
    pFilt (collapseWsAux fuel l) = pFilt l := by
  intro fuel
  induction fuel with
  | zero => intro l; rfl
  | succ fuel ih =>
    intro l
    match l with
    | [] => rfl
    | c :: rest =>
      rw [collapseWsAux]
      by_cases hc : isSpace c = true
      · rw [if_pos hc]
        unfold pFilt
        rw [List.filter_cons_of_neg (by decide),
          List.filter_cons_of_neg (by simp [space_not_paren hc])]
        show pFilt (collapseWsAux fuel (rest.dropWhile isSpace)) = pFilt rest
        rw [ih, pFilt_dropWhile_space]
      · rw [if_neg hc]
        unfold pFilt
        rw [List.filter_cons, List.filter_cons]
        show (if isParen c = true then c :: pFilt (collapseWsAux fuel rest)
              else pFilt (collapseWsAux fuel rest))
          = (if isParen c = true then c :: pFilt rest else pFilt rest)
        rw [ih]

theorem noPP_cleanName (np : Str) : noPP (cleanName np) = true := by
  unfold cleanName collapseWs
  rw [← noPP_pFilt, pFilt_collapseAux, pFilt_stripList, noPP_pFilt]
  exact noPP_subParenAux np.length np (le_refl _)

theorem collapse_head : ∀ (fuel : Nat) (t : Str) (h : Char),
    isSpace h = false →
    (collapseWsAux fuel (h :: t)).head? = some h := by
  intro fuel t h hs
  cases fuel with
  | zero => rfl
  | succ fuel =>
    rw [collapseWsAux, if_neg (by simp [hs])]
    rfl

theorem noDS_collapseAux : ∀ (fuel : Nat) (l : Str), l.length ≤ fuel →
    noDS (collapseWsAux fuel l) = true := by
  intro fuel
  induction fuel with
  | zero =>
    intro l hl
    have hnil : l = [] := List.length_eq_zero.1 (Nat.le_zero.1 hl)
    subst hnil
    rfl
  | succ fuel ih =>
    intro l hl
    match l with
    | [] => rfl
    | c :: rest =>
      rw [collapseWsAux]
      by_cases hc : isSpace c = true
      · rw [if_pos hc]
        have hout := ih (rest.dropWhile isSpace)
          (by have := length_dropWhile_le isSpace rest
              simp only [List.length_cons] at hl
              omega)
        cases ho : collapseWsAux fuel (rest.dropWhile isSpace) with
        | nil => rfl
        | cons d t' =>
          have hd : d ≠ ' ' := by
            cases hdw : rest.dropWhile isSpace with
            | nil =>
              rw [hdw] at ho
              cases fuel <;> simp [collapseWsAux] at ho
            | cons e t2 =>
              have he : isSpace e = false :=
                head_dropWhile_false (p := isSpace) (l := rest)
                  (by rw [hdw]; rfl)
              have hh := collapse_head fuel t2 e he
              rw [hdw] at ho
              rw [ho] at hh
              simp only [List.head?_cons, Option.some.injEq] at hh
              subst hh
              intro hde
              subst hde
              exact absurd he (by decide)
          rw [noDS]
          simp only [Bool.and_eq_true, Bool.not_eq_true']
          refine ⟨by simp [hd], ?_⟩
          rw [← ho]
          exact hout
      · rw [if_neg hc]
        have hout := ih rest
          (by simp only [List.length_cons] at hl; omega)
        cases ho : collapseWsAux fuel rest with
        | nil => rfl
        | cons d t' =>
          rw [noDS]
          have hc' : ¬ (c = ' ') := by
            intro hce
            subst hce
            exact absurd (by decide : isSpace ' ' = true) (by simp [hc])
          simp only [Bool.and_eq_true, Bool.not_eq_true']
          refine ⟨by simp [hc'], ?_⟩
          rw [← ho]
          exact hout

theorem noDS_cleanName (np : Str) : noDS (cleanName np) = true := by
  unfold cleanName collapseWs
  exact noDS_collapseAux _ _ (le_refl _)

/-- Every record produced from a row carries a `cleanName`-shaped name. -/
theorem processRow_name {sem ct : Str} {m : (Nat × Nat) × Nat} {rec : Course}
    (h : processRow sem ct m = some rec) :
    ∃ np, rec.name = cleanName np :=
  (processRow_some h).2

/-- C7: every emitted record's name contains no parenthetical substring
(no `(` is ever followed by a `)`) and no two consecutive space
characters. -/
theorem c7_names :
    ∀ t rec, rec ∈ parse_transcript t →
      noPP rec.name = true ∧ noDS rec.name = true := by
  intro t rec hmem
  simp only [parse_transcript, List.mem_flatMap] at hmem
  obtain ⟨p, -, hmem⟩ := hmem
  simp only [processBlock, List.mem_filterMap] at hmem
  obtain ⟨m, -, hrow⟩ := hmem
  obtain ⟨np, hname⟩ := processRow_name hrow
  rw [hname]
  exact ⟨noPP_cleanName np, noDS_cleanName np⟩

def exW7 : Str :=
  "2023-2024 Bahar Dönemi\nMAT 201 Diff Eq (Türkçe) Tr 4 0 4.0 6.0 CB 2.50".toList

def recW7 : Course :=
  ⟨"2023-2024 Bahar Dönemi".toList, "MAT 201".toList, "Diff Eq".toList,
   "Tr".toList, "4".toList, "0".toList, "4.0".toList, "6.0".toList,
   "CB".toList, "2.50".toList, []⟩

theorem c7_names_witness :
    noPP recW7.name = true ∧ noDS recW7.name = true :=
  c7_names exW7 recW7 (by decide)

theorem c10_trailing_witness :
    (∃ pre w, "ABC 123 x".toList = pre ++ w :: "x".toList ∧
      isSpace w = true) ∧
    courseMatch (([] : Str) ++ ([] : Str)
      ++ 'A' :: 'B' :: 'C' :: ([' '] ++ '1' :: '2' :: '3' :: ([] : Str)))
      = none :=
  ⟨c10_trailing.1 "ABC 123 x".toList "x".toList (by decide),
   c10_trailing.2 [] [] 'A' 'B' 'C' [' '] '1' '2' '3' []
     (Or.inl rfl) (by decide) (by decide) (by decide) (by decide)
     (by decide) (by decide) (by decide) (by decide) (by decide)
     (by decide)⟩

end TS
